import Mathlib

/-!
Verification of `split_fasta.py` (fplaza/split_fasta).

The program is a Python 2 script; its pure logic is shallowly embedded here.
Text is modelled as `List Char` (the bytes of a Python 2 `str`), a file as the
list of its lines.  The host is modelled as POSIX, so `os.linesep = "\n"` and
text-mode I/O performs no terminator translation.
-/

set_option maxHeartbeats 1000000
set_option maxRecDepth 100000

/-- A line of text (no terminator), as a list of characters. -/
abbrev Line := List Char

/-- A FASTA record: the header line paired with the concatenated sequence. -/
abbrev FastaRec := List Char × List Char

/-- The six ASCII characters Python 2 `str.rstrip()` removes. -/
def isPySpace (c : Char) : Bool :=
  c = ' ' || c = '\t' || c = '\n' || c = '\x0b' || c = '\x0c' || c = '\r'

/-- Model of `line.rstrip()`: remove the maximal run of trailing whitespace. -/
def rstrip : Line → Line
  | [] => []
  | c :: cs =>
    let r := rstrip cs
    if r = [] then (if isPySpace c then [] else [c]) else c :: r

/-- Split a text at every newline character, keeping a (possibly empty) final
piece; never returns `[]`. -/
def splitNl : List Char → List Line
  | [] => [[]]
  | c :: cs =>
    if c = '\n' then [] :: splitNl cs
    else (c :: (splitNl cs).headD []) :: (splitNl cs).tail

/-- The lines a Python text-mode file iterator yields (terminators dropped):
split at newlines, dropping the final piece when it is empty. -/
def pyLines (t : List Char) : List Line :=
  if (splitNl t).getLastD [] = [] then (splitNl t).dropLast else splitNl t

/-- The state-passing body of `read_fasta`: the pending header (`none`
initially; Python's `if header:` is a `None` test, header lines being
nonempty strings) and the accumulated sequence fragments. -/
def readFastaGo : List Line → Option Line → List Line → List FastaRec
  | [], header, seqAcc =>
    match header with
    | none => []
    | some h => [(h, seqAcc.flatten)]
  | line :: rest, header, seqAcc =>
    if (rstrip line).head? = some '>' then
      match header with
      | some h => (h, seqAcc.flatten) :: readFastaGo rest (some (rstrip line)) []
      | none => readFastaGo rest (some (rstrip line)) []
    else
      readFastaGo rest header (seqAcc ++ [rstrip line])

/-- `read_fasta`: the records the generator yields, in order. -/
def read_fasta (lines : List Line) : List FastaRec := readFastaGo lines none []

/-- `count_entries`: the number of input lines that start with `'>'`. -/
def count_entries (lines : List Line) : Nat :=
  lines.countP (fun l => l.head? = some '>')

/-- Python's `sep.join(pieces)`. -/
def pyJoin (sep : List Char) : List (List Char) → List Char
  | [] => []
  | [x] => x
  | x :: y :: xs => x ++ sep ++ pyJoin sep (y :: xs)

/-- `os.linesep`, modelled for a POSIX host. -/
def linesep : List Char := ['\n']

/-- The slices `text[i:i+width]` produced by `fill`'s generator
`(text[i:i+width] for i in xrange(0, len(text), width))`; for `width > 0` the
indices are `0, width, 2*width, ...`, i.e. `ceil(len/width)` of them
(`xrange` with step `0` raises in Python; the claims assume `width > 0`). -/
def fillLines (text : List Char) (width : Nat) : List Line :=
  (List.range ((text.length + width - 1) / width)).map
    (fun i => (text.drop (i * width)).take width)

/-- `fill(text, width=80)`: the slices joined by `os.linesep`. -/
def fill (text : List Char) (width : Nat := 80) : List Char :=
  pyJoin linesep (fillLines text width)

/-- The text the count-policy writer emits for one record:
`print("{1}{0}{2}".format(os.linesep, header, fill(seq)), file=chunk_stream)`,
i.e. the formatted string plus the `"\n"` that `print` appends. -/
def serializeCount (r : FastaRec) : List Char := r.1 ++ linesep ++ fill r.2 ++ ['\n']

/-- The text the size-policy writer emits for one record:
`output = "{1}{0}{2}{0}".format(os.linesep, header, fill(seq))`. -/
def serializeSize (r : FastaRec) : List Char := r.1 ++ linesep ++ fill r.2 ++ linesep

/-- `len(output)` for one record in the size-policy writer. -/
def recBytes (r : FastaRec) : Nat := (serializeSize r).length

/-- The byte size of a chunk: the length of the chunk file's content. -/
def chunkBytes (g : List FastaRec) : Nat := ((g.map serializeSize).flatten).length

/-- Loop of `split`: `cur` holds the open chunk's records and `entries` is
`entries_in_chunk`; the rollover test `entries_in_chunk == chunk_size` runs
before each write, and the final chunk is closed when input is exhausted. -/
def splitGo (chunk_size : Nat) : List FastaRec → List FastaRec → Nat → List (List FastaRec)
  | [], cur, _ => [cur]
  | r :: rs, cur, entries =>
    if entries = chunk_size then cur :: splitGo chunk_size rs [r] 1
    else splitGo chunk_size rs (cur ++ [r]) (entries + 1)

/-- `split`: the per-chunk record groups the count-policy writer produces. -/
def split (chunk_size : Nat) (rs : List FastaRec) : List (List FastaRec) :=
  splitGo chunk_size rs [] 0

/-- Loop of `split_depending_on_size`: `fileSize` is the running `file_size`;
the rollover test `file_size >= max_file_size` runs before each write, and
`file_size` grows by `len(output)` after each write. -/
def sizeGo (max_file_size : Nat) : List FastaRec → List FastaRec → Nat → List (List FastaRec)
  | [], cur, _ => [cur]
  | r :: rs, cur, fileSize =>
    if max_file_size ≤ fileSize then cur :: sizeGo max_file_size rs [r] (recBytes r)
    else sizeGo max_file_size rs (cur ++ [r]) (fileSize + recBytes r)

/-- `split_depending_on_size`: the per-chunk record groups of the size policy. -/
def split_depending_on_size (max_file_size : Nat) (rs : List FastaRec) : List (List FastaRec) :=
  sizeGo max_file_size rs [] 0

/-- The chunk files' contents written by `split` on a given input text. -/
def countChunkTexts (chunk_size : Nat) (t : List Char) : List (List Char) :=
  (split chunk_size (read_fasta (pyLines t))).map (fun g => (g.map serializeCount).flatten)

/-- The chunk files' contents written by `split_depending_on_size`. -/
def sizeChunkTexts (max_file_size : Nat) (t : List Char) : List (List Char) :=
  (split_depending_on_size max_file_size (read_fasta (pyLines t))).map
    (fun g => (g.map serializeSize).flatten)

/-- Parse each chunk file with the Record Reader and concatenate the record
lists in chunk-index order. -/
def reparse (chunks : List (List Char)) : List FastaRec :=
  (chunks.map (fun ct => read_fasta (pyLines ct))).flatten

/-- Reference chunking used in proofs: take `c` records at a time. -/
def chunksWF (c : Nat) (rs : List FastaRec) : List (List FastaRec) :=
  if h : rs = [] ∨ c = 0 then []
  else rs.take c :: chunksWF c (rs.drop c)
termination_by rs.length
decreasing_by
  have h1 : rs ≠ [] := fun hh => h (Or.inl hh)
  have h2 : c ≠ 0 := fun hh => h (Or.inr hh)
  have h3 : 0 < rs.length := List.length_pos.mpr h1
  simp only [List.length_drop]
  omega

/-- Join a list of lines into a text, a terminator after each line. -/
def unlines (L : List Line) : List Char := (L.map (fun l => l ++ ['\n'])).flatten

/-- The sequence lines one serialized record contributes to its chunk file:
an empty sequence contributes a single empty line, otherwise the wrapped
slices. -/
def seqLines (s : List Char) : List Line := if s = [] then [[]] else fillLines s 80

/-- All lines one serialized record contributes to its chunk file. -/
def recLines (r : FastaRec) : List Line := r.1 :: seqLines r.2

/-- `int(c) - int('0')` for a digit character. -/
def digitVal (c : Char) : Nat := c.toNat - '0'.toNat

/-- The numeric value of a decimal digit string. -/
def digitsToNat (s : List Char) : Nat := s.foldl (fun a c => 10 * a + digitVal c) 0

/-- Floor of the base-2 logarithm, by fuel-bounded structural recursion so
that it evaluates inside the kernel; any `fuel ≥ n` computes it exactly. -/
def log2fuel : Nat → Nat → Nat
  | 0, _ => 0
  | fuel + 1, n => if n < 2 then 0 else log2fuel fuel (n / 2) + 1

/-- The nearest IEEE-754 double to a natural number (round to nearest, ties
to even): exact below 2^53, otherwise rounded to a multiple of the unit in
the last place of the number's binade.  Valid below 2^1024, where Python's
`float` is still finite. -/
def roundToDouble (n : Nat) : Nat :=
  if n < 2 ^ 53 then n
  else
    let ulp := 2 ^ (log2fuel n n - 52)
    let q := n / ulp
    let r := n % ulp
    if 2 * r < ulp then q * ulp
    else if ulp < 2 * r then (q + 1) * ulp
    else (if q % 2 = 0 then q else q + 1) * ulp

/-- Model of Python's `float(s)` restricted to integer literals, the only
inputs the claims quantify over: a nonempty all-digit string parses to the
nearest double of its value (exact only up to 2^53). -/
def parseDigits (s : List Char) : Option Nat :=
  if s ≠ [] ∧ s.all Char.isDigit then some (roundToDouble (digitsToNat s)) else none

/-- The errors `num_with_si_suffix` can raise. -/
inductive CliError where
  | indexError
  | valueError
  | unknownSuffix
  deriving DecidableEq

/-- The `unit_to_value` dictionary lookup. -/
def suffixVal (c : Char) : Option Nat :=
  if c = 'k' then some (2 ^ 10)
  else if c = 'M' then some (2 ^ 20)
  else if c = 'G' then some (2 ^ 30)
  else if c = 'T' then some (2 ^ 40)
  else none

/-- `num_with_si_suffix(num)`: if the last character is a digit, parse the
whole string; otherwise parse all but the last character (`float(num[0:-1])`,
which raises before the suffix is inspected) and multiply by the suffix's
value, `ArgumentTypeError` for an unknown suffix.  `num[-1]` on an empty
string raises `IndexError`. -/
def num_with_si_suffix (num : List Char) : Except CliError Nat :=
  match num.getLast? with
  | none => .error .indexError
  | some c =>
    if c.isDigit then
      match parseDigits num with
      | some v => .ok v
      | none => .error .valueError
    else
      match parseDigits num.dropLast with
      | none => .error .valueError
      | some v =>
        match suffixVal c with
        | some mult => .ok (v * mult)
        | none => .error .unknownSuffix

/-- Python truthiness of the optional `-n` argument: `None` and `0` are falsy. -/
def truthyInt (x : Option Int) : Bool :=
  match x with
  | none => false
  | some v => decide (v ≠ 0)

/-- Python truthiness of the optional `-m` argument. -/
def truthyNat (x : Option Nat) : Bool :=
  match x with
  | none => false
  | some v => decide (v ≠ 0)

/-- What the `__main__` block decides to do.  `helpExit code`: print the
message to stderr, print the help text, and `sys.exit(parser.print_help())`;
`print_help()` returns `None`, and `sys.exit(None)` exits with status 0. -/
inductive MainAction where
  | helpExit (exitCode : Nat)
  | runCount (numChunks : Int)
  | runSize (maxFileSize : Nat)
  deriving DecidableEq

/-- The dispatch of the `__main__` block on the two policy arguments. -/
def mainDispatch (num_chunks : Option Int) (max_file_size : Option Nat) : MainAction :=
  if ¬ truthyInt num_chunks ∧ ¬ truthyNat max_file_size then
    MainAction.helpExit 0
  else if truthyInt num_chunks then
    MainAction.runCount (num_chunks.getD 0)
  else
    MainAction.runSize (max_file_size.getD 0)

/-- A five-record input used as a concrete witness. -/
def egLines5 : List Line := [['>', 'a'], ['>', 'b'], ['>', 'c'], ['>', 'd'], ['>', 'e']]

/-- A small two-record FASTA text used as a concrete witness. -/
def egText : List Char :=
  ['>', 'a', '\n', 'A', 'C', 'G', 'T', '\n', 'G', 'G', '\n', '>', 'b', '\n', 'T', 'T', '\n']

/-- A text whose single record has `'>'` at sequence index 80, so that the
wrapped output starts a line with `'>'`. -/
def badText : List Char :=
  ['>', 'h', '\n'] ++ List.replicate 80 'A' ++ ['>', 'B', '\n']

/-- The per-record conditions under which a serialized record re-parses
exactly: the header is `rstrip`-fixed and starts with `'>'`, no newline is
embedded, and no wrapped sequence line has trailing whitespace or starts
with `'>'`. -/
def goodRec (r : FastaRec) : Prop :=
  rstrip r.1 = r.1 ∧ r.1.head? = some '>' ∧ '\n' ∉ r.1 ∧ '\n' ∉ r.2 ∧
    (∀ l ∈ seqLines r.2, rstrip l = l ∧ ¬ l.head? = some '>')

instance (r : FastaRec) : Decidable (goodRec r) := by
  unfold goodRec
  infer_instance

/-- The total serialized size of a chunk's records, the value `file_size`
accumulates. -/
def sumBytes (g : List FastaRec) : Nat := (g.map recBytes).sum

/-! ### Lemmas: `rstrip` -/

theorem cons_headD_tail {α : Type} (l : List α) (d : α) (h : l ≠ []) :
    l.headD d :: l.tail = l := by
  cases l with
  | nil => exact absurd rfl h
  | cons a as => rfl

theorem headD_mem {α : Type} (l : List α) (d : α) (h : l ≠ []) : l.headD d ∈ l := by
  cases l with
  | nil => exact absurd rfl h
  | cons a as => exact List.mem_cons_self _ _

theorem tail_mem {α : Type} (l : List α) (x : α) (h : x ∈ l.tail) : x ∈ l := by
  cases l with
  | nil => simp at h
  | cons a as => exact List.mem_cons_of_mem _ h

theorem rstrip_idem (l : Line) : rstrip (rstrip l) = rstrip l := by
  induction l with
  | nil => rfl
  | cons c cs ih =>
    by_cases h : rstrip cs = []
    · by_cases hs : isPySpace c
      · simp [rstrip, h, hs]
      · simp [rstrip, h, hs]
    · simp [rstrip, h, ih]

theorem rstrip_head_gt (l : Line) :
    ((rstrip l).head? = some '>') ↔ (l.head? = some '>') := by
  cases l with
  | nil => simp [rstrip]
  | cons c cs =>
    by_cases h : rstrip cs = []
    · by_cases hs : isPySpace c
      · have hc : c ≠ '>' := by rintro rfl; revert hs; decide
        simp [rstrip, h, hs, hc]
      · simp [rstrip, h, hs]
    · simp [rstrip, h]

theorem rstrip_subset (l : Line) : ∀ c ∈ rstrip l, c ∈ l := by
  induction l with
  | nil => simp [rstrip]
  | cons c cs ih =>
    by_cases h : rstrip cs = []
    · by_cases hs : isPySpace c <;> simp [rstrip, h, hs]
    · intro a ha
      simp only [rstrip, if_neg h] at ha
      rcases List.mem_cons.mp ha with h1 | h1
      · exact h1 ▸ List.mem_cons_self _ _
      · exact List.mem_cons_of_mem _ (ih a h1)

/-! ### Lemmas: `splitNl`, `pyLines`, `unlines` -/

theorem splitNl_ne_nil (t : List Char) : splitNl t ≠ [] := by
  cases t with
  | nil => simp [splitNl]
  | cons c cs => by_cases h : c = '\n' <;> simp [splitNl, h]

theorem splitNl_cons_nl (cs : List Char) : splitNl ('\n' :: cs) = [] :: splitNl cs := by
  simp [splitNl]

theorem splitNl_cons_not_nl (c : Char) (cs : List Char) (h : ¬ c = '\n') :
    splitNl (c :: cs) = (c :: (splitNl cs).headD []) :: (splitNl cs).tail := by
  simp [splitNl, h]

theorem splitNl_no_nl (t : List Char) : ∀ p ∈ splitNl t, '\n' ∉ p := by
  induction t with
  | nil => simp [splitNl]
  | cons c cs ih =>
    by_cases h : c = '\n'
    · subst h
      rw [splitNl_cons_nl]
      intro p hp
      rcases List.mem_cons.mp hp with h1 | h1
      · subst h1; simp
      · exact ih p h1
    · rw [splitNl_cons_not_nl c cs h]
      intro p hp
      rcases List.mem_cons.mp hp with h1 | h1
      · subst h1
        intro hmem
        rcases List.mem_cons.mp hmem with h2 | h2
        · exact h h2.symm
        · exact ih _ (headD_mem (splitNl cs) [] (splitNl_ne_nil cs)) h2
      · exact ih p (tail_mem (splitNl cs) p h1)

theorem splitNl_append (l rest : List Char) (h : '\n' ∉ l) :
    splitNl (l ++ '\n' :: rest) = l :: splitNl rest := by
  induction l with
  | nil => simp [splitNl]
  | cons c cs ih =>
    have hc : ¬ c = '\n' := fun hh => h (hh ▸ List.mem_cons_self _ _)
    have hcs : '\n' ∉ cs := fun hh => h (List.mem_cons_of_mem _ hh)
    rw [List.cons_append, splitNl_cons_not_nl _ _ hc, ih hcs]
    simp

theorem unlines_cons (l : Line) (L : List Line) :
    unlines (l :: L) = l ++ '\n' :: unlines L := by
  simp [unlines]

theorem unlines_append (A B : List Line) : unlines (A ++ B) = unlines A ++ unlines B := by
  simp [unlines]

theorem splitNl_unlines (L : List Line) (h : ∀ l ∈ L, '\n' ∉ l) :
    splitNl (unlines L) = L ++ [[]] := by
  induction L with
  | nil => rfl
  | cons l L ih =>
    rw [unlines_cons, splitNl_append l _ (h l (List.mem_cons_self _ _)),
      ih (fun x hx => h x (List.mem_cons_of_mem _ hx))]
    rfl

theorem pyLines_unlines (L : List Line) (h : ∀ l ∈ L, '\n' ∉ l) :
    pyLines (unlines L) = L := by
  have hs := splitNl_unlines L h
  have hlast : (splitNl (unlines L)).getLastD [] = [] := by
    rw [hs, List.getLastD_eq_getLast?, List.getLast?_concat]
    rfl
  rw [pyLines, if_pos hlast, hs, List.dropLast_concat]

theorem pyLines_no_nl (t : List Char) : ∀ p ∈ pyLines t, '\n' ∉ p := by
  intro p hp
  have hmem : p ∈ splitNl t := by
    by_cases hgl : (splitNl t).getLastD [] = []
    · rw [pyLines, if_pos hgl] at hp
      exact (List.dropLast_sublist _).subset hp
    · rwa [pyLines, if_neg hgl] at hp
  exact splitNl_no_nl t p hmem

/-! ### Lemmas: `fillLines` -/

theorem fillLines_length (s : List Char) (w : Nat) :
    (fillLines s w).length = (s.length + w - 1) / w := by
  simp [fillLines]

theorem flatten_range_slices (w : Nat) (hw : 0 < w) :
    ∀ (k : Nat) (s : List Char), s.length ≤ k * w →
      ((List.range k).map (fun i => (s.drop (i * w)).take w)).flatten = s := by
  intro k
  induction k with
  | zero =>
    intro s hs
    have hnil : s = [] := List.length_eq_zero.mp (Nat.le_zero.mp (by simpa using hs))
    subst hnil
    rfl
  | succ k ih =>
    intro s hs
    rw [List.range_succ_eq_map]
    simp only [List.map_cons, List.map_map, List.flatten_cons]
    have hcomp :
        ((fun i => (s.drop (i * w)).take w) ∘ (fun i => i + 1)) =
          (fun i => ((s.drop w).drop (i * w)).take w) := by
      funext i
      simp only [Function.comp]
      rw [List.drop_drop]
      congr 1
      ring
    rw [hcomp]
    have hlen : (s.drop w).length ≤ k * w := by
      rw [List.length_drop]
      have : (k + 1) * w = k * w + w := by ring
      omega
    rw [ih (s.drop w) hlen]
    simp

theorem ceil_mul_ge (a w : Nat) (hw : 0 < w) : a ≤ ((a + w - 1) / w) * w := by
  rcases Nat.eq_zero_or_pos a with h | h
  · subst h; exact Nat.zero_le _
  · have hrw : a + w - 1 = (a - 1) + w := by omega
    rw [hrw, Nat.add_div_right _ hw]
    have hdm := Nat.div_add_mod (a - 1) w
    have hlt := Nat.mod_lt (a - 1) hw
    have hmul : ((a - 1) / w + 1) * w = w * ((a - 1) / w) + w := by ring
    rw [hmul]
    omega

theorem fillLines_flatten (s : List Char) (w : Nat) (hw : 0 < w) :
    (fillLines s w).flatten = s := by
  simp only [fillLines]
  exact flatten_range_slices w hw _ s (ceil_mul_ge s.length w hw)

theorem fillLines_le (s : List Char) (w : Nat) : ∀ l ∈ fillLines s w, l.length ≤ w := by
  intro l hl
  simp only [fillLines, List.mem_map] at hl
  obtain ⟨i, _, rfl⟩ := hl
  exact List.length_take_le _ _

theorem fillLines_full (s : List Char) (w i : Nat) (hw : 0 < w)
    (hi : i + 1 < (fillLines s w).length) :
    ((fillLines s w).getD i []).length = w := by
  have hlen : (fillLines s w).length = (s.length + w - 1) / w := fillLines_length s w
  have hs0 : 0 < s.length := by
    by_contra h0
    have hz : s.length = 0 := by omega
    rw [hlen, hz] at hi
    have : (0 + w - 1) / w = 0 := Nat.div_eq_of_lt (by omega)
    omega
  have hceil : (s.length + w - 1) / w = (s.length - 1) / w + 1 := by
    have hx : s.length + w - 1 = (s.length - 1) + w := by omega
    rw [hx, Nat.add_div_right _ hw]
  have hi2 : i + 1 ≤ (s.length - 1) / w := by omega
  have hmul : (i + 1) * w ≤ s.length := by
    have h1 : (i + 1) * w ≤ ((s.length - 1) / w) * w := Nat.mul_le_mul_right w hi2
    have h2 : ((s.length - 1) / w) * w ≤ s.length - 1 := Nat.div_mul_le_self _ _
    omega
  have hilt : i < (fillLines s w).length := by omega
  rw [List.getD_eq_getElem _ _ hilt]
  have hilt2 : i < (List.range ((s.length + w - 1) / w)).length := by
    simpa [fillLines] using hilt
  simp only [fillLines, List.getElem_map, List.getElem_range, List.length_take,
    List.length_drop]
  have hx : (i + 1) * w = i * w + w := by ring
  omega

theorem fillLines_mem_subset (s : List Char) (w : Nat) (l : Line)
    (hl : l ∈ fillLines s w) : ∀ c ∈ l, c ∈ s := by
  simp only [fillLines, List.mem_map] at hl
  obtain ⟨i, _, rfl⟩ := hl
  intro c hc
  exact List.drop_subset _ _ (List.take_subset _ _ hc)

theorem seqLines_flatten (s : List Char) : (seqLines s).flatten = s := by
  by_cases h : s = []
  · subst h; rfl
  · rw [seqLines, if_neg h]
    exact fillLines_flatten s 80 (by omega)

/-! ### Lemmas: serialization as lines -/

theorem pyJoin_nl_unlines (L : List Line) (hL : L ≠ []) :
    pyJoin ['\n'] L ++ ['\n'] = unlines L := by
  induction L with
  | nil => exact absurd rfl hL
  | cons x xs ih =>
    cases xs with
    | nil => simp [pyJoin, unlines]
    | cons y ys =>
      rw [pyJoin, unlines_cons, List.append_assoc, List.append_assoc, ih (by simp)]
      simp

theorem fillLines_ne_nil (s : List Char) (h : s ≠ []) : fillLines s 80 ≠ [] := by
  apply List.ne_nil_of_length_pos
  rw [fillLines_length]
  have h0 : 0 < s.length := List.length_pos.mpr h
  have : 1 * 80 ≤ s.length + 80 - 1 := by omega
  have := Nat.le_div_iff_mul_le (by omega : 0 < 80) |>.mpr this
  omega

theorem serializeSize_unlines (r : FastaRec) : serializeSize r = unlines (recLines r) := by
  by_cases h : r.2 = []
  · rw [recLines, seqLines, if_pos h, serializeSize, fill, h]
    simp [fillLines, pyJoin, unlines, linesep]
  · rw [recLines, seqLines, if_neg h, serializeSize, fill, unlines_cons,
      ← pyJoin_nl_unlines _ (fillLines_ne_nil r.2 h)]
    simp [linesep]

theorem chunkText_unlines (g : List FastaRec) :
    (g.map serializeSize).flatten = unlines ((g.map recLines).flatten) := by
  induction g with
  | nil => rfl
  | cons r g ih =>
    rw [List.map_cons, List.flatten_cons, List.map_cons, List.flatten_cons,
      unlines_append, serializeSize_unlines, ih]

/-! ### Lemmas: `read_fasta` reconstruction -/

theorem readFastaGo_cons (l : Line) (rest : List Line) (hdr : Option Line) (acc : List Line) :
    readFastaGo (l :: rest) hdr acc =
      if (rstrip l).head? = some '>' then
        match hdr with
        | some h => (h, acc.flatten) :: readFastaGo rest (some (rstrip l)) []
        | none => readFastaGo rest (some (rstrip l)) []
      else
        readFastaGo rest hdr (acc ++ [rstrip l]) := by
  cases hdr <;> rfl

theorem readFastaGo_header_some (l : Line) (rest : List Line) (h : Line) (acc : List Line)
    (hgt : (rstrip l).head? = some '>') :
    readFastaGo (l :: rest) (some h) acc =
      (h, acc.flatten) :: readFastaGo rest (some (rstrip l)) [] := by
  simp only [readFastaGo_cons, if_pos hgt]

theorem readFastaGo_header_none (l : Line) (rest : List Line) (acc : List Line)
    (hgt : (rstrip l).head? = some '>') :
    readFastaGo (l :: rest) none acc = readFastaGo rest (some (rstrip l)) [] := by
  simp only [readFastaGo_cons, if_pos hgt]

theorem readFastaGo_frag (l : Line) (rest : List Line) (hdr : Option Line) (acc : List Line)
    (hnh : ¬ (rstrip l).head? = some '>') :
    readFastaGo (l :: rest) hdr acc = readFastaGo rest hdr (acc ++ [rstrip l]) := by
  rw [readFastaGo_cons, if_neg hnh]

theorem readFastaGo_frags (ls' : List Line) :
    ∀ (rest : List Line) (hdr : Option Line) (acc : List Line),
      (∀ l ∈ ls', rstrip l = l ∧ ¬ l.head? = some '>') →
      readFastaGo (ls' ++ rest) hdr acc = readFastaGo rest hdr (acc ++ ls') := by
  induction ls' with
  | nil => intro rest hdr acc _; simp
  | cons l ls ih =>
    intro rest hdr acc h
    have hl := h l (List.mem_cons_self _ _)
    have hnh : ¬ (rstrip l).head? = some '>' := by rw [hl.1]; exact hl.2
    rw [List.cons_append, readFastaGo_frag _ _ _ _ hnh, hl.1,
      ih rest hdr (acc ++ [l]) (fun x hx => h x (List.mem_cons_of_mem _ hx))]
    simp

theorem readFastaGo_records (R : List FastaRec) :
    ∀ (h : Line) (acc : List Line),
      (∀ r ∈ R, rstrip r.1 = r.1 ∧ r.1.head? = some '>' ∧
        (∀ l ∈ seqLines r.2, rstrip l = l ∧ ¬ l.head? = some '>')) →
      readFastaGo ((R.map recLines).flatten) (some h) acc = (h, acc.flatten) :: R := by
  induction R with
  | nil => intro h acc _; rfl
  | cons r R ih =>
    intro h acc hgood
    have hr := hgood r (List.mem_cons_self _ _)
    have hgt : (rstrip r.1).head? = some '>' := by rw [hr.1]; exact hr.2.1
    rw [List.map_cons, List.flatten_cons, recLines, List.cons_append,
      readFastaGo_header_some _ _ _ _ hgt, hr.1,
      readFastaGo_frags (seqLines r.2) _ (some r.1) [] hr.2.2, List.nil_append,
      ih r.1 (seqLines r.2) (fun x hx => hgood x (List.mem_cons_of_mem _ hx)),
      seqLines_flatten]

theorem read_fasta_group (g : List FastaRec) (hgood : ∀ r ∈ g, goodRec r) :
    read_fasta (pyLines ((g.map serializeSize).flatten)) = g := by
  have hno : ∀ l ∈ (g.map recLines).flatten, '\n' ∉ l := by
    intro l hl
    rw [List.mem_flatten] at hl
    obtain ⟨a, ha, hla⟩ := hl
    rw [List.mem_map] at ha
    obtain ⟨r, hr, rfl⟩ := ha
    have hg := hgood r hr
    rw [recLines] at hla
    rcases List.mem_cons.mp hla with h1 | h1
    · exact h1 ▸ hg.2.2.1
    · by_cases h2 : r.2 = []
      · rw [seqLines, if_pos h2] at h1
        simp at h1
        subst h1
        simp
      · rw [seqLines, if_neg h2] at h1
        intro hc
        exact hg.2.2.2.1 (fillLines_mem_subset _ _ _ h1 _ hc)
  rw [chunkText_unlines, pyLines_unlines _ hno]
  cases g with
  | nil => rfl
  | cons r g' =>
    have hr := hgood r (List.mem_cons_self _ _)
    have hgt : (rstrip r.1).head? = some '>' := by rw [hr.1]; exact hr.2.1
    rw [List.map_cons, List.flatten_cons, recLines, List.cons_append, read_fasta,
      readFastaGo_header_none _ _ _ hgt, hr.1,
      readFastaGo_frags (seqLines r.2) _ (some r.1) []
        (fun x hx => (hgood r (List.mem_cons_self _ _)).2.2.2.2 x hx),
      List.nil_append,
      readFastaGo_records g' r.1 (seqLines r.2)
        (fun x hx =>
          ⟨(hgood x (List.mem_cons_of_mem _ hx)).1,
           (hgood x (List.mem_cons_of_mem _ hx)).2.1,
           (hgood x (List.mem_cons_of_mem _ hx)).2.2.2.2⟩),
      seqLines_flatten]

/-! ### Lemmas: invariants of the Record Reader -/

theorem readFastaGo_good (ls : List Line) :
    ∀ (hdr : Option Line) (acc : List Line),
      (∀ l ∈ ls, '\n' ∉ l) →
      (∀ h, hdr = some h → h.head? = some '>' ∧ rstrip h = h ∧ '\n' ∉ h) →
      (∀ a ∈ acc, '\n' ∉ a) →
      ∀ r ∈ readFastaGo ls hdr acc,
        r.1.head? = some '>' ∧ rstrip r.1 = r.1 ∧ '\n' ∉ r.1 ∧ '\n' ∉ r.2 := by
  induction ls with
  | nil =>
    intro hdr acc _ hh ha r hr
    cases hdr with
    | none => simp [readFastaGo] at hr
    | some h =>
      have hre : r = (h, acc.flatten) := by simpa [readFastaGo] using hr
      subst hre
      obtain ⟨h1, h2, h3⟩ := hh h rfl
      refine ⟨h1, h2, h3, ?_⟩
      intro hc
      rw [List.mem_flatten] at hc
      obtain ⟨a, haa, hca⟩ := hc
      exact ha a haa hca
  | cons l ls ih =>
    intro hdr acc hls hh ha r hr
    have hl : '\n' ∉ l := hls l (List.mem_cons_self _ _)
    have hls' : ∀ x ∈ ls, '\n' ∉ x := fun x hx => hls x (List.mem_cons_of_mem _ hx)
    have hlstrip : '\n' ∉ rstrip l := fun hc => hl (rstrip_subset l _ hc)
    by_cases hgt : (rstrip l).head? = some '>'
    · have hnew : ∀ h', some (rstrip l) = some h' →
          h'.head? = some '>' ∧ rstrip h' = h' ∧ '\n' ∉ h' := by
        intro h' heq
        injection heq with heq'
        subst heq'
        exact ⟨hgt, rstrip_idem l, hlstrip⟩
      cases hdr with
      | none =>
        rw [readFastaGo_header_none _ _ _ hgt] at hr
        exact ih (some (rstrip l)) [] hls' hnew (by simp) r hr
      | some h =>
        rw [readFastaGo_header_some _ _ _ _ hgt] at hr
        rcases List.mem_cons.mp hr with h1 | h1
        · subst h1
          obtain ⟨g1, g2, g3⟩ := hh h rfl
          refine ⟨g1, g2, g3, ?_⟩
          intro hc
          rw [List.mem_flatten] at hc
          obtain ⟨a, haa, hca⟩ := hc
          exact ha a haa hca
        · exact ih (some (rstrip l)) [] hls' hnew (by simp) r h1
    · rw [readFastaGo_frag _ _ _ _ hgt] at hr
      refine ih hdr (acc ++ [rstrip l]) hls' hh ?_ r hr
      intro a haa
      rcases List.mem_append.mp haa with h1 | h1
      · exact ha a h1
      · have : a = rstrip l := by simpa using h1
        exact this ▸ hlstrip

theorem read_fasta_good (t : List Char) :
    ∀ r ∈ read_fasta (pyLines t),
      r.1.head? = some '>' ∧ rstrip r.1 = r.1 ∧ '\n' ∉ r.1 ∧ '\n' ∉ r.2 :=
  readFastaGo_good (pyLines t) none [] (pyLines_no_nl t)
    (fun _ hh => by cases hh) (by simp)

theorem readFastaGo_length (ls : List Line) :
    ∀ (hdr : Option Line) (acc : List Line),
      (readFastaGo ls hdr acc).length =
        count_entries ls + (match hdr with | some _ => 1 | none => 0) := by
  induction ls with
  | nil =>
    intro hdr acc
    cases hdr <;> simp [readFastaGo, count_entries]
  | cons l ls ih =>
    intro hdr acc
    have hcount : count_entries (l :: ls) =
        count_entries ls + (if l.head? = some '>' then 1 else 0) := by
      simp [count_entries, List.countP_cons]
    by_cases hgt : (rstrip l).head? = some '>'
    · have hgt' : l.head? = some '>' := (rstrip_head_gt l).mp hgt
      cases hdr with
      | none =>
        rw [readFastaGo_header_none _ _ _ hgt, ih]
        simp [hcount, hgt']
      | some h =>
        rw [readFastaGo_header_some _ _ _ _ hgt, List.length_cons, ih]
        simp [hcount, hgt']
    · have hgt' : ¬ l.head? = some '>' := fun hh => hgt ((rstrip_head_gt l).mpr hh)
      rw [readFastaGo_frag _ _ _ _ hgt, ih]
      simp [hcount, hgt']

theorem readFastaGo_no_header (ls : List Line) :
    ∀ acc, (∀ l ∈ ls, ¬ l.head? = some '>') → readFastaGo ls none acc = [] := by
  induction ls with
  | nil => intro acc _; rfl
  | cons l ls ih =>
    intro acc h
    have hgt : ¬ (rstrip l).head? = some '>' :=
      fun hh => h l (List.mem_cons_self _ _) ((rstrip_head_gt l).mp hh)
    rw [readFastaGo_frag _ _ _ _ hgt]
    exact ih _ (fun x hx => h x (List.mem_cons_of_mem _ hx))

/-! ### Lemmas: count-policy writer -/

theorem splitGo_nil (c : Nat) (cur : List FastaRec) (e : Nat) :
    splitGo c [] cur e = [cur] := rfl

theorem splitGo_cons (c : Nat) (r : FastaRec) (rs cur : List FastaRec) (e : Nat) :
    splitGo c (r :: rs) cur e =
      if e = c then cur :: splitGo c rs [r] 1 else splitGo c rs (cur ++ [r]) (e + 1) := rfl

theorem splitGo_flatten (c : Nat) (rs : List FastaRec) :
    ∀ (cur : List FastaRec) (e : Nat), (splitGo c rs cur e).flatten = cur ++ rs := by
  induction rs with
  | nil => intro cur e; simp [splitGo_nil]
  | cons r rs ih =>
    intro cur e
    rw [splitGo_cons]
    by_cases h : e = c <;> simp [h, ih]

theorem splitGo_ne_nil (c : Nat) (rs : List FastaRec) :
    ∀ (cur : List FastaRec) (e : Nat), splitGo c rs cur e ≠ [] := by
  induction rs with
  | nil => intro cur e; simp [splitGo_nil]
  | cons r rs ih =>
    intro cur e
    rw [splitGo_cons]
    by_cases h : e = c <;> simp [h, ih]

theorem split_flatten (c : Nat) (rs : List FastaRec) : (split c rs).flatten = rs := by
  rw [split, splitGo_flatten]
  rfl

theorem chunksWF_nil (c : Nat) : chunksWF c [] = [] := by
  rw [chunksWF]
  simp

theorem chunksWF_cons' (c : Nat) (rs : List FastaRec) (hc : 0 < c) (hne : rs ≠ []) :
    chunksWF c rs = rs.take c :: chunksWF c (rs.drop c) := by
  rw [chunksWF, dif_neg]
  rintro (h | h)
  · exact hne h
  · omega

theorem splitGo_eq_chunksWF (c : Nat) (hc : 0 < c) (rs : List FastaRec) :
    ∀ (cur : List FastaRec), cur.length ≤ c →
      splitGo c rs cur cur.length =
        (cur ++ rs.take (c - cur.length)) :: chunksWF c (rs.drop (c - cur.length)) := by
  induction rs with
  | nil =>
    intro cur _
    rw [splitGo_nil, List.take_nil, List.drop_nil, List.append_nil, chunksWF_nil]
  | cons r rs ih =>
    intro cur hle
    rw [splitGo_cons]
    by_cases h : cur.length = c
    · rw [if_pos h]
      have h0 : c - cur.length = 0 := by omega
      rw [h0, List.take_zero, List.drop_zero, List.append_nil,
        chunksWF_cons' c (r :: rs) hc (by simp)]
      have h1 := ih [r] (by simpa using hc)
      have hl1 : ([r] : List FastaRec).length = 1 := rfl
      rw [hl1] at h1
      rw [h1]
      obtain ⟨c', rfl⟩ : ∃ c', c = c' + 1 := ⟨c - 1, by omega⟩
      rw [List.take_succ_cons, List.drop_succ_cons]
      simp
    · rw [if_neg h]
      have h1 := ih (cur ++ [r]) (by simp; omega)
      have hlen : (cur ++ [r]).length = cur.length + 1 := by simp
      rw [hlen] at h1
      rw [h1]
      have h2 : c - cur.length = (c - (cur.length + 1)) + 1 := by omega
      rw [h2, List.take_succ_cons, List.drop_succ_cons]
      simp

theorem split_eq_chunksWF (c : Nat) (hc : 0 < c) (rs : List FastaRec) (hne : rs ≠ []) :
    split c rs = chunksWF c rs := by
  have h := splitGo_eq_chunksWF c hc rs [] (by simp)
  simp only [List.length_nil, Nat.sub_zero, List.nil_append] at h
  rw [split, h, chunksWF_cons' c rs hc hne]

theorem chunksWF_flatten (c : Nat) (hc : 0 < c) :
    ∀ (n : Nat) (rs : List FastaRec), rs.length ≤ n → (chunksWF c rs).flatten = rs := by
  intro n
  induction n with
  | zero =>
    intro rs h
    have : rs = [] := List.length_eq_zero.mp (by omega)
    subst this
    rw [chunksWF_nil]
    rfl
  | succ n ih =>
    intro rs h
    by_cases hne : rs = []
    · subst hne; rw [chunksWF_nil]; rfl
    · have hpos : 0 < rs.length := List.length_pos.mpr hne
      rw [chunksWF_cons' c rs hc hne, List.flatten_cons,
        ih (rs.drop c) (by rw [List.length_drop]; omega), List.take_append_drop]

theorem chunksWF_ne_nil (c : Nat) (rs : List FastaRec) (hc : 0 < c) (hne : rs ≠ []) :
    chunksWF c rs ≠ [] := by
  rw [chunksWF_cons' c rs hc hne]
  simp

theorem chunksWF_length (c : Nat) (hc : 0 < c) :
    ∀ (n : Nat) (rs : List FastaRec), rs.length ≤ n →
      (chunksWF c rs).length = (rs.length + c - 1) / c := by
  intro n
  induction n with
  | zero =>
    intro rs h
    have : rs = [] := List.length_eq_zero.mp (by omega)
    subst this
    rw [chunksWF_nil]
    simp only [List.length_nil]
    symm
    apply Nat.div_eq_of_lt
    omega
  | succ n ih =>
    intro rs h
    by_cases hne : rs = []
    · subst hne
      rw [chunksWF_nil]
      simp only [List.length_nil]
      symm
      apply Nat.div_eq_of_lt
      omega
    · have hpos : 0 < rs.length := List.length_pos.mpr hne
      rw [chunksWF_cons' c rs hc hne, List.length_cons]
      by_cases hlec : rs.length ≤ c
      · rw [List.drop_eq_nil_of_le hlec, chunksWF_nil]
        have h1 : (rs.length + c - 1) / c = 1 :=
          Nat.div_eq_of_lt_le (by omega) (by omega)
        simp [h1]
      · have hlt : c < rs.length := by omega
        rw [ih (rs.drop c) (by rw [List.length_drop]; omega), List.length_drop]
        have harw : rs.length + c - 1 = (rs.length - c + c - 1) + c := by omega
        rw [harw, Nat.add_div_right _ hc]

theorem getLastD_irrel {α : Type} (l : List α) (d1 d2 : α) (h : l ≠ []) :
    l.getLastD d1 = l.getLastD d2 := by
  cases l with
  | nil => exact absurd rfl h
  | cons a as => rw [List.getLastD_cons, List.getLastD_cons]

theorem chunksWF_parts (c : Nat) (hc : 0 < c) :
    ∀ (n : Nat) (rs : List FastaRec), rs.length ≤ n → rs ≠ [] →
      (∀ ch ∈ (chunksWF c rs).dropLast, ch.length = c) ∧
      rs.length = ((chunksWF c rs).length - 1) * c +
        ((chunksWF c rs).getLastD []).length ∧
      0 < ((chunksWF c rs).getLastD []).length ∧
      ((chunksWF c rs).getLastD []).length ≤ c := by
  intro n
  induction n with
  | zero =>
    intro rs h hne
    exact absurd (List.length_eq_zero.mp (by omega)) hne
  | succ n ih =>
    intro rs h hne
    have hpos : 0 < rs.length := List.length_pos.mpr hne
    rw [chunksWF_cons' c rs hc hne]
    by_cases hlec : rs.length ≤ c
    · rw [List.drop_eq_nil_of_le hlec, chunksWF_nil, List.take_of_length_le hlec]
      refine ⟨by simp, by simp, by simpa using hpos, by simpa using hlec⟩
    · have hlt : c < rs.length := by omega
      have hdne : rs.drop c ≠ [] := by
        apply List.ne_nil_of_length_pos
        rw [List.length_drop]
        omega
      obtain ⟨IH1, IH2, IH3, IH4⟩ :=
        ih (rs.drop c) (by rw [List.length_drop]; omega) hdne
      have hcne : chunksWF c (rs.drop c) ≠ [] := chunksWF_ne_nil c _ hc hdne
      obtain ⟨y, t, hyt⟩ := List.exists_cons_of_ne_nil hcne
      rw [List.length_drop] at IH2
      refine ⟨?_, ?_, ?_, ?_⟩
      · intro ch hch
        rw [hyt, List.dropLast_cons₂, ← hyt] at hch
        rcases List.mem_cons.mp hch with h1 | h1
        · subst h1
          rw [List.length_take]
          omega
        · exact IH1 ch h1
      · rw [hyt, List.getLastD_cons, List.length_cons,
          getLastD_irrel (y :: t) (rs.take c) [] (by simp), ← hyt]
        obtain ⟨m, hm⟩ : ∃ m, (chunksWF c (rs.drop c)).length = m + 1 := by
          rw [hyt]; exact ⟨t.length, by simp⟩
        rw [hm]
        rw [hm] at IH2
        have hsm2 : (m + 1 + 1 - 1) * c = m * c + c := by
          rw [Nat.add_sub_cancel, Nat.succ_mul]
        rw [hsm2]
        rw [Nat.add_sub_cancel] at IH2
        omega
      · rw [hyt, List.getLastD_cons,
          getLastD_irrel (y :: t) (rs.take c) [] (by simp), ← hyt]
        exact IH3
      · rw [hyt, List.getLastD_cons,
          getLastD_irrel (y :: t) (rs.take c) [] (by simp), ← hyt]
        exact IH4

/-! ### Lemmas: size-policy writer -/

theorem sumBytes_cons (r : FastaRec) (g : List FastaRec) :
    sumBytes (r :: g) = recBytes r + sumBytes g := by
  simp [sumBytes]

theorem chunkBytes_eq_sumBytes (g : List FastaRec) : chunkBytes g = sumBytes g := by
  rw [chunkBytes, List.length_flatten, sumBytes, List.map_map]
  rfl

theorem sumBytes_dropLast (g : List FastaRec) (d : FastaRec) (h : g ≠ []) :
    sumBytes g = sumBytes g.dropLast + recBytes (g.getLastD d) := by
  induction g with
  | nil => exact absurd rfl h
  | cons r g ih =>
    cases hg : g with
    | nil => subst hg; simp [sumBytes, List.getLastD_cons]
    | cons y t =>
      subst hg
      rw [List.dropLast_cons₂, List.getLastD_cons, getLastD_irrel (y :: t) r d (by simp),
        sumBytes_cons r (y :: t), sumBytes_cons r ((y :: t).dropLast), ih (by simp)]
      ring

theorem sizeGo_nil (m : Nat) (cur : List FastaRec) (fs : Nat) :
    sizeGo m [] cur fs = [cur] := rfl

theorem sizeGo_cons (m : Nat) (r : FastaRec) (rs cur : List FastaRec) (fs : Nat) :
    sizeGo m (r :: rs) cur fs =
      if m ≤ fs then cur :: sizeGo m rs [r] (recBytes r)
      else sizeGo m rs (cur ++ [r]) (fs + recBytes r) := rfl

theorem sizeGo_flatten (m : Nat) (rs : List FastaRec) :
    ∀ (cur : List FastaRec) (fs : Nat), (sizeGo m rs cur fs).flatten = cur ++ rs := by
  induction rs with
  | nil => intro cur fs; simp [sizeGo_nil]
  | cons r rs ih =>
    intro cur fs
    rw [sizeGo_cons]
    by_cases h : m ≤ fs <;> simp [h, ih]

theorem sizeGo_ne_nil (m : Nat) (rs : List FastaRec) :
    ∀ (cur : List FastaRec) (fs : Nat), sizeGo m rs cur fs ≠ [] := by
  induction rs with
  | nil => intro cur fs; simp [sizeGo_nil]
  | cons r rs ih =>
    intro cur fs
    rw [sizeGo_cons]
    by_cases h : m ≤ fs <;> simp [h, ih]

theorem size_flatten (m : Nat) (rs : List FastaRec) :
    (split_depending_on_size m rs).flatten = rs := by
  rw [split_depending_on_size, sizeGo_flatten]
  rfl

theorem sizeGo_closed (m : Nat) (rs : List FastaRec) :
    ∀ cur, ∀ ch ∈ (sizeGo m rs cur (sumBytes cur)).dropLast, m ≤ sumBytes ch := by
  induction rs with
  | nil => intro cur; rw [sizeGo_nil]; simp
  | cons r rs ih =>
    intro cur
    rw [sizeGo_cons]
    by_cases h : m ≤ sumBytes cur
    · rw [if_pos h]
      intro ch hch
      have hrr : recBytes r = sumBytes [r] := by simp [sumBytes]
      rw [hrr, List.dropLast_cons_of_ne_nil (sizeGo_ne_nil m rs [r] _)] at hch
      rcases List.mem_cons.mp hch with h1 | h1
      · exact h1 ▸ h
      · exact ih [r] ch h1
    · rw [if_neg h]
      intro ch hch
      have heq : sumBytes cur + recBytes r = sumBytes (cur ++ [r]) := by simp [sumBytes]
      rw [heq] at hch
      exact ih (cur ++ [r]) ch hch

theorem sizeGo_nonempty (m : Nat) (hm : 0 < m) (rs : List FastaRec) :
    ∀ cur, (cur ≠ [] ∨ rs ≠ []) → ∀ ch ∈ sizeGo m rs cur (sumBytes cur), ch ≠ [] := by
  induction rs with
  | nil =>
    intro cur hc ch hch
    rw [sizeGo_nil] at hch
    have : ch = cur := by simpa using hch
    subst this
    rcases hc with h1 | h1
    · exact h1
    · exact absurd rfl h1
  | cons r rs ih =>
    intro cur hc ch hch
    rw [sizeGo_cons] at hch
    by_cases h : m ≤ sumBytes cur
    · rw [if_pos h] at hch
      rcases List.mem_cons.mp hch with h1 | h1
      · subst h1
        intro hnil
        subst hnil
        simp [sumBytes] at h
        omega
      · have hrr : recBytes r = sumBytes [r] := by simp [sumBytes]
        rw [hrr] at h1
        exact ih [r] (Or.inl (by simp)) ch h1
    · rw [if_neg h] at hch
      have heq : sumBytes cur + recBytes r = sumBytes (cur ++ [r]) := by simp [sumBytes]
      rw [heq] at hch
      exact ih (cur ++ [r]) (Or.inl (by simp)) ch hch

theorem sizeGo_exceed (m : Nat) (hm : 0 < m) (rs : List FastaRec) :
    ∀ cur, sumBytes cur.dropLast < m →
      ∀ ch ∈ sizeGo m rs cur (sumBytes cur),
        sumBytes ch < m + recBytes (ch.getLastD ([], [])) := by
  induction rs with
  | nil =>
    intro cur hcur ch hch
    rw [sizeGo_nil] at hch
    have : ch = cur := by simpa using hch
    subst this
    by_cases hne : ch = []
    · subst hne
      have : sumBytes ([] : List FastaRec) = 0 := rfl
      omega
    · rw [sumBytes_dropLast ch ([], []) hne]
      omega
  | cons r rs ih =>
    intro cur hcur ch hch
    rw [sizeGo_cons] at hch
    by_cases h : m ≤ sumBytes cur
    · rw [if_pos h] at hch
      rcases List.mem_cons.mp hch with h1 | h1
      · subst h1
        by_cases hne : ch = []
        · subst hne
          have : sumBytes ([] : List FastaRec) = 0 := rfl
          omega
        · rw [sumBytes_dropLast ch ([], []) hne]
          omega
      · have hrr : recBytes r = sumBytes [r] := by simp [sumBytes]
        rw [hrr] at h1
        refine ih [r] ?_ ch h1
        have : sumBytes (([r] : List FastaRec).dropLast) = 0 := rfl
        omega
    · rw [if_neg h] at hch
      have heq : sumBytes cur + recBytes r = sumBytes (cur ++ [r]) := by simp [sumBytes]
      rw [heq] at hch
      refine ih (cur ++ [r]) ?_ ch hch
      rw [List.dropLast_concat]
      omega

/-! ### Claim theorems -/

/-- C4: Formatter wrap law — for every string `s` and width `w > 0`, the
Sequence Formatter's lines concatenate back to `s` exactly, every line has
length at most `w`, every line except possibly the last has length exactly
`w`, and `fill` is those lines joined by the line terminator. -/
theorem formatter_wrap_law (s : List Char) (w : Nat) (hw : 0 < w) :
    (fillLines s w).flatten = s ∧
    (∀ l ∈ fillLines s w, l.length ≤ w) ∧
    (∀ i, i + 1 < (fillLines s w).length → ((fillLines s w).getD i []).length = w) ∧
    fill s w = pyJoin linesep (fillLines s w) :=
  ⟨fillLines_flatten s w hw, fillLines_le s w,
    fun i hi => fillLines_full s w i hw hi, rfl⟩

/-- Witness for C4 at `s = "ABCDE"`, `w = 2` (lines `AB`, `CD`, `E`). -/
theorem formatter_wrap_law_witness :
    0 < 2 ∧
    ((fillLines ['A', 'B', 'C', 'D', 'E'] 2).flatten = ['A', 'B', 'C', 'D', 'E'] ∧
     (∀ l ∈ fillLines ['A', 'B', 'C', 'D', 'E'] 2, l.length ≤ 2) ∧
     (∀ i, i + 1 < (fillLines ['A', 'B', 'C', 'D', 'E'] 2).length →
       ((fillLines ['A', 'B', 'C', 'D', 'E'] 2).getD i []).length = 2) ∧
     fill ['A', 'B', 'C', 'D', 'E'] 2 = pyJoin linesep (fillLines ['A', 'B', 'C', 'D', 'E'] 2)) :=
  ⟨by decide, formatter_wrap_law ['A', 'B', 'C', 'D', 'E'] 2 (by decide)⟩

/-- C5: Per-record formatting equivalence — the text the count-policy writer
emits for a record (`print` adds a trailing `"\n"` after the
`"{1}{0}{2}"`-formatted string) is byte-identical to the text the size-policy
writer emits (`"{1}{0}{2}{0}"`), namely
header, terminator, formatted sequence, terminator. -/
theorem per_record_formatting_equiv :
    ∀ r : FastaRec, serializeCount r = serializeSize r ∧
      serializeCount r = r.1 ++ linesep ++ fill r.2 80 ++ linesep :=
  fun _ => ⟨rfl, rfl⟩

/-- C10: Counter/parser agreement — the Entry Counter's result equals the
number of records the Record Reader yields on the same lines. -/
theorem counter_reader_agreement (lines : List Line) :
    count_entries lines = (read_fasta lines).length := by
  have h := readFastaGo_length lines none []
  rw [read_fasta, h]
  simp

/-- C9: Zero-record input is crash-free — with no `'>'`-line in the input and
any `n > 0`, the reader yields no records, the chunk-size computation
`(E + n - 1) / n` evaluates to `0`, and each writer produces exactly one
chunk, holding no records, whose file content is empty. -/
theorem zero_record_input (lines : List Line) (n m : Nat) (hn : 0 < n)
    (hno : ∀ l ∈ lines, ¬ l.head? = some '>') :
    read_fasta lines = [] ∧
    ((read_fasta lines).length + n - 1) / n = 0 ∧
    split (((read_fasta lines).length + n - 1) / n) (read_fasta lines) = [[]] ∧
    split_depending_on_size m (read_fasta lines) = [[]] ∧
    (split (((read_fasta lines).length + n - 1) / n) (read_fasta lines)).map
      (fun g => (g.map serializeCount).flatten) = [[]] ∧
    (split_depending_on_size m (read_fasta lines)).map
      (fun g => (g.map serializeSize).flatten) = [[]] := by
  have hempty : read_fasta lines = [] := readFastaGo_no_header lines [] hno
  refine ⟨hempty, ?_, ?_, ?_, ?_, ?_⟩
  · rw [hempty]
    simp only [List.length_nil]
    exact Nat.div_eq_of_lt (by omega)
  · rw [hempty]; rfl
  · rw [hempty]; rfl
  · rw [hempty]; rfl
  · rw [hempty]; rfl

/-- Witness for C9: the input `["hi"]` with `n = 3`, `m = 7`. -/
theorem zero_record_input_witness :
    (0 < 3 ∧ (∀ l ∈ [['h', 'i']], ¬ l.head? = some '>')) ∧
    (read_fasta [['h', 'i']] = [] ∧
     ((read_fasta [['h', 'i']]).length + 3 - 1) / 3 = 0 ∧
     split (((read_fasta [['h', 'i']]).length + 3 - 1) / 3) (read_fasta [['h', 'i']]) = [[]] ∧
     split_depending_on_size 7 (read_fasta [['h', 'i']]) = [[]] ∧
     (split (((read_fasta [['h', 'i']]).length + 3 - 1) / 3) (read_fasta [['h', 'i']])).map
       (fun g => (g.map serializeCount).flatten) = [[]] ∧
     (split_depending_on_size 7 (read_fasta [['h', 'i']])).map
       (fun g => (g.map serializeSize).flatten) = [[]]) :=
  ⟨⟨by decide, by decide⟩, zero_record_input [['h', 'i']] 3 7 (by decide) (by decide)⟩

/-- C2: Count-policy chunk sizes — with `E > 0` records and `n > 0` requested
chunks, running `split` with `chunk_size = ceil(E/n)` yields exactly
`ceil(E/ceil(E/n))` chunks; every chunk except the last holds exactly
`ceil(E/n)` records and the last holds `E - (chunks-1)*ceil(E/n) > 0`. -/
theorem count_policy_chunk_sizes (lines : List Line) (n E c : Nat)
    (hE : E = (read_fasta lines).length) (hEpos : 0 < E) (hn : 0 < n)
    (hc : c = (E + n - 1) / n) :
    (split c (read_fasta lines)).length = (E + c - 1) / c ∧
    (∀ ch ∈ (split c (read_fasta lines)).dropLast, ch.length = c) ∧
    E = ((split c (read_fasta lines)).length - 1) * c +
      ((split c (read_fasta lines)).getLastD []).length ∧
    ((split c (read_fasta lines)).getLastD []).length =
      E - ((split c (read_fasta lines)).length - 1) * c ∧
    0 < ((split c (read_fasta lines)).getLastD []).length := by
  subst hE
  subst hc
  have hne : read_fasta lines ≠ [] := List.ne_nil_of_length_pos hEpos
  have hcpos : 0 < ((read_fasta lines).length + n - 1) / n := by
    have h1 : 1 * n ≤ (read_fasta lines).length + n - 1 := by omega
    exact (Nat.le_div_iff_mul_le hn).mpr h1
  rw [split_eq_chunksWF _ hcpos (read_fasta lines) hne]
  obtain ⟨P1, P2, P3, P4⟩ :=
    chunksWF_parts _ hcpos (read_fasta lines).length (read_fasta lines) le_rfl hne
  exact ⟨chunksWF_length _ hcpos (read_fasta lines).length (read_fasta lines) le_rfl,
    P1, P2, by omega, P3⟩

/-- Witness for C2: five records, two requested chunks, so `chunk_size = 3`
and the chunks hold 3 and 2 records. -/
theorem count_policy_chunk_sizes_witness :
    (5 = (read_fasta egLines5).length ∧ 0 < 5 ∧ 0 < 2 ∧ 3 = (5 + 2 - 1) / 2) ∧
    ((split 3 (read_fasta egLines5)).length = (5 + 3 - 1) / 3 ∧
     (∀ ch ∈ (split 3 (read_fasta egLines5)).dropLast, ch.length = 3) ∧
     5 = ((split 3 (read_fasta egLines5)).length - 1) * 3 +
       ((split 3 (read_fasta egLines5)).getLastD []).length ∧
     ((split 3 (read_fasta egLines5)).getLastD []).length =
       5 - ((split 3 (read_fasta egLines5)).length - 1) * 3 ∧
     0 < ((split 3 (read_fasta egLines5)).getLastD []).length) :=
  ⟨⟨by decide, by decide, by decide, by decide⟩,
    count_policy_chunk_sizes egLines5 2 5 3 (by decide) (by decide) (by decide) (by decide)⟩

/-- C3: Size-policy rollover bound — with at least one record and
`max_file_size > 0`, every chunk except the last has serialized size at
least `max_file_size`, no chunk is empty, any chunk exceeds the threshold
by strictly less than its own last record's serialized size (so by at most
one record's size), and the chunks partition the records in order (the
record that triggers rollover lands in the freshly opened chunk). -/
theorem size_policy_rollover (lines : List Line) (m : Nat)
    (hm : 0 < m) (hne : read_fasta lines ≠ []) :
    (∀ ch ∈ (split_depending_on_size m (read_fasta lines)).dropLast, m ≤ chunkBytes ch) ∧
    (∀ ch ∈ split_depending_on_size m (read_fasta lines), ch ≠ []) ∧
    (∀ ch ∈ split_depending_on_size m (read_fasta lines),
      chunkBytes ch < m + recBytes (ch.getLastD ([], []))) ∧
    (split_depending_on_size m (read_fasta lines)).flatten = read_fasta lines := by
  refine ⟨?_, ?_, ?_, size_flatten m (read_fasta lines)⟩
  · intro ch hch
    rw [chunkBytes_eq_sumBytes]
    exact sizeGo_closed m (read_fasta lines) [] ch hch
  · intro ch hch
    exact sizeGo_nonempty m hm (read_fasta lines) [] (Or.inr hne) ch hch
  · intro ch hch
    rw [chunkBytes_eq_sumBytes]
    exact sizeGo_exceed m hm (read_fasta lines) [] hm ch hch

/-- Witness for C3: the two-record example split at `max_file_size = 5`
(chunk sizes 10 and 6 bytes). -/
theorem size_policy_rollover_witness :
    (0 < 5 ∧ read_fasta (pyLines egText) ≠ []) ∧
    ((∀ ch ∈ (split_depending_on_size 5 (read_fasta (pyLines egText))).dropLast,
        5 ≤ chunkBytes ch) ∧
     (∀ ch ∈ split_depending_on_size 5 (read_fasta (pyLines egText)), ch ≠ []) ∧
     (∀ ch ∈ split_depending_on_size 5 (read_fasta (pyLines egText)),
        chunkBytes ch < 5 + recBytes (ch.getLastD ([], []))) ∧
     (split_depending_on_size 5 (read_fasta (pyLines egText))).flatten =
       read_fasta (pyLines egText)) :=
  ⟨⟨by decide, by decide⟩,
    size_policy_rollover (pyLines egText) 5 (by decide) (by decide)⟩

theorem readFastaGo_map_rstrip (ls : List Line) :
    ∀ (hdr : Option Line) (acc : List Line),
      readFastaGo (ls.map rstrip) hdr acc = readFastaGo ls hdr acc := by
  induction ls with
  | nil => intro hdr acc; rfl
  | cons l ls ih =>
    intro hdr acc
    rw [List.map_cons]
    by_cases hgt : (rstrip l).head? = some '>'
    · have hgt2 : (rstrip (rstrip l)).head? = some '>' := by
        rw [rstrip_idem]; exact hgt
      cases hdr with
      | none =>
        rw [readFastaGo_header_none _ _ _ hgt2, readFastaGo_header_none _ _ _ hgt,
          rstrip_idem, ih]
      | some h =>
        rw [readFastaGo_header_some _ _ _ _ hgt2, readFastaGo_header_some _ _ _ _ hgt,
          rstrip_idem, ih]
    · have hgt2 : ¬ (rstrip (rstrip l)).head? = some '>' := by
        rw [rstrip_idem]; exact hgt
      rw [readFastaGo_frag _ _ _ _ hgt2, readFastaGo_frag _ _ _ _ hgt, rstrip_idem, ih]

/-- C8 (amended): the Record Reader strips ALL trailing whitespace (spaces,
tabs, vertical whitespace and the line terminator) from every input line via
`rstrip()` before classifying it, so parsing is invariant under `rstrip` of
the input lines; in particular a sequence line ending in spaces or tabs
contributes its content WITHOUT those trailing characters. -/
theorem reader_line_stripping :
    (∀ ls : List Line, read_fasta ls = read_fasta (ls.map rstrip)) ∧
    read_fasta [['>', 'h'], ['A', 'C', ' ', '\t']] = [(['>', 'h'], ['A', 'C'])] := by
  constructor
  · intro ls
    rw [read_fasta, read_fasta, readFastaGo_map_rstrip]
  · decide

/-- Counterexample to C8 as stated: the sequence line `"AC "` (trailing
space, no line terminator) does NOT contribute its trailing space to the
record's sequence — the reader yields `"AC"`, not `"AC "`. -/
theorem reader_line_stripping_counterexample :
    read_fasta [['>', 'h'], ['A', 'C', ' ']] ≠ [(['>', 'h'], ['A', 'C', ' '])] := by
  decide

/-- C7: Missing-policy path — with neither `-n` nor `-m` supplied, the
`__main__` block prints the message and the help text and calls
`sys.exit(parser.print_help())`; `print_help()` returns `None`, so the
process exits with status 0 (success), and no splitting work is dispatched.
The recorded exit code 0 contradicts the claim's "exits unsuccessfully". -/
theorem missing_policy_exit :
    mainDispatch none none = MainAction.helpExit 0 := rfl

theorem num_with_si_suffix_concat (ds : List Char) (c : Char) :
    num_with_si_suffix (ds ++ [c]) =
      if c.isDigit then
        match parseDigits (ds ++ [c]) with
        | some v => Except.ok v
        | none => Except.error CliError.valueError
      else
        match parseDigits ds with
        | none => Except.error CliError.valueError
        | some v =>
          match suffixVal c with
          | some mult => Except.ok (v * mult)
          | none => Except.error CliError.unknownSuffix := by
  simp only [num_with_si_suffix, List.getLast?_concat, List.dropLast_concat]

theorem parseDigits_all (ds : List Char) (hne : ds ≠ []) (hdig : ∀ x ∈ ds, x.isDigit) :
    parseDigits ds = some (roundToDouble (digitsToNat ds)) := by
  rw [parseDigits, if_pos]
  exact ⟨hne, List.all_eq_true.mpr hdig⟩

theorem roundToDouble_eq_self (n : Nat) (h : n ≤ 2 ^ 53) : roundToDouble n = n := by
  rcases Nat.lt_or_ge n (2 ^ 53) with h1 | h1
  · rw [roundToDouble, if_pos h1]
  · have h2 : n = 2 ^ 53 := by omega
    subst h2
    decide

theorem num_with_si_suffix_digits (ds : List Char) (hne : ds ≠ [])
    (hdig : ∀ x ∈ ds, x.isDigit) :
    num_with_si_suffix ds = Except.ok (roundToDouble (digitsToNat ds)) := by
  rcases List.eq_nil_or_concat ds with h | ⟨t, x, rfl⟩
  · exact absurd h hne
  · rw [List.concat_eq_append] at hdig ⊢
    have hx : x.isDigit := hdig x (by simp)
    rw [num_with_si_suffix_concat, if_pos hx, parseDigits_all (t ++ [x]) (by simp) hdig]

/-- C6 (amended): SI-suffix parsing — a bare (all-digit, nonempty) integer
string whose value goes through `float()` unchanged, i.e. is at most 2^53,
maps to its integer value; such an integer immediately followed by a suffix
with a value in `unit_to_value` (`k`, `M`, `G`, `T`, for 2^10, 2^20, 2^30,
2^40) maps to the integer times that value; and an integer followed by any
other non-digit character raises the `unknown suffix` validation error.
Above 2^53 the value is first rounded to the nearest double. -/
theorem si_suffix_parsing :
    (∀ ds : List Char, ds ≠ [] → (∀ x ∈ ds, x.isDigit) → digitsToNat ds ≤ 2 ^ 53 →
      num_with_si_suffix ds = Except.ok (digitsToNat ds)) ∧
    (∀ (ds : List Char) (c : Char) (mult : Nat), ds ≠ [] → (∀ x ∈ ds, x.isDigit) →
      digitsToNat ds ≤ 2 ^ 53 → suffixVal c = some mult →
      num_with_si_suffix (ds ++ [c]) = Except.ok (digitsToNat ds * mult)) ∧
    (∀ (ds : List Char) (c : Char), ds ≠ [] → (∀ x ∈ ds, x.isDigit) →
      ¬ c.isDigit = true → suffixVal c = none →
      num_with_si_suffix (ds ++ [c]) = Except.error CliError.unknownSuffix) := by
  refine ⟨?_, ?_, ?_⟩
  · intro ds hne hdig hbound
    rw [num_with_si_suffix_digits ds hne hdig, roundToDouble_eq_self _ hbound]
  · intro ds c mult hne hdig hbound hsuf
    have hcnd : ¬ c.isDigit = true := by
      rw [suffixVal] at hsuf
      split_ifs at hsuf with h1 h2 h3 h4
      · subst h1; decide
      · subst h2; decide
      · subst h3; decide
      · subst h4; decide
    rw [num_with_si_suffix_concat, if_neg hcnd, parseDigits_all ds hne hdig,
      roundToDouble_eq_self _ hbound, hsuf]
  · intro ds c hne hdig hcnd hsuf
    rw [num_with_si_suffix_concat, if_neg hcnd, parseDigits_all ds hne hdig, hsuf]

/-- Witness for C6: `"5k"` gives 5120, `"10"` gives 10, `"3X"` raises the
unknown-suffix validation error. -/
theorem si_suffix_parsing_witness :
    num_with_si_suffix ['5', 'k'] = Except.ok 5120 ∧
    num_with_si_suffix ['1', '0'] = Except.ok 10 ∧
    num_with_si_suffix ['3', 'X'] = Except.error CliError.unknownSuffix := by
  refine ⟨?_, ?_, ?_⟩
  · have h := si_suffix_parsing.2.1 ['5'] 'k' 1024 (by decide) (by decide) (by decide)
      (by decide)
    rw [show (['5'] ++ ['k'] : List Char) = ['5', 'k'] from rfl] at h
    rw [h]
    exact congrArg Except.ok (by decide)
  · have h := si_suffix_parsing.1 ['1', '0'] (by decide) (by decide) (by decide)
    rw [h]
    exact congrArg Except.ok (by decide)
  · have h := si_suffix_parsing.2.2 ['3'] 'X' (by decide) (by decide) (by decide) (by decide)
    rw [show (['3'] ++ ['X'] : List Char) = ['3', 'X'] from rfl] at h
    exact h

/-- Counterexample to C6 as stated: the bare integer string
`"9007199254740993"` (2^53 + 1) does NOT map to 9007199254740993 — `float`
rounds it to the nearest double, 9007199254740992, which `int` returns. -/
theorem si_suffix_parsing_counterexample :
    num_with_si_suffix
        ['9', '0', '0', '7', '1', '9', '9', '2', '5', '4', '7', '4', '0', '9', '9', '3'] =
      Except.ok 9007199254740992 ∧
    num_with_si_suffix
        ['9', '0', '0', '7', '1', '9', '9', '2', '5', '4', '7', '4', '0', '9', '9', '3'] ≠
      Except.ok 9007199254740993 := by
  have h := num_with_si_suffix_digits
    ['9', '0', '0', '7', '1', '9', '9', '2', '5', '4', '7', '4', '0', '9', '9', '3']
    (by decide) (by decide)
  constructor
  · rw [h]
    exact congrArg Except.ok (by decide)
  · rw [h]
    intro heq
    have h2 := Except.ok.inj heq
    exact absurd h2 (by decide)

/-- C1 (amended): Round-trip completeness — for any input text and both
splitting policies (any `chunk_size`, any `max_file_size`), parsing each
output chunk file with the Record Reader and concatenating the record lists
in chunk order reproduces exactly the records of the original input, with no
record duplicated, lost or reordered, PROVIDED that no record's sequence,
when re-wrapped at width 80 for output, yields a line with trailing
whitespace or a line beginning with `'>'` (always the case for standard
FASTA sequence alphabets). -/
theorem round_trip_completeness (t : List Char)
    (hgood : ∀ r ∈ read_fasta (pyLines t),
      ∀ l ∈ fillLines r.2 80, rstrip l = l ∧ ¬ l.head? = some '>')
    (chunk_size max_file_size : Nat) :
    reparse (countChunkTexts chunk_size t) = read_fasta (pyLines t) ∧
    reparse (sizeChunkTexts max_file_size t) = read_fasta (pyLines t) := by
  have hgoodAll : ∀ r ∈ read_fasta (pyLines t), goodRec r := by
    intro r hr
    obtain ⟨g1, g2, g3, g4⟩ := read_fasta_good t r hr
    refine ⟨g2, g1, g3, g4, ?_⟩
    intro l hl
    by_cases h2 : r.2 = []
    · rw [seqLines, if_pos h2] at hl
      have : l = [] := by simpa using hl
      subst this
      exact ⟨rfl, by simp⟩
    · rw [seqLines, if_neg h2] at hl
      exact hgood r hr l hl
  constructor
  · rw [reparse, countChunkTexts, List.map_map]
    have hmapeq : ∀ g ∈ split chunk_size (read_fasta (pyLines t)),
        ((fun ct => read_fasta (pyLines ct)) ∘
          (fun g => (g.map serializeCount).flatten)) g = (fun g => g) g := by
      intro g hg
      have hgg : ∀ r ∈ g, goodRec r := by
        intro r hr
        apply hgoodAll
        rw [← split_flatten chunk_size (read_fasta (pyLines t))]
        exact List.mem_flatten.mpr ⟨g, hg, hr⟩
      have hser : g.map serializeCount = g.map serializeSize :=
        List.map_congr_left (fun a _ => rfl)
      show read_fasta (pyLines ((g.map serializeCount).flatten)) = g
      rw [hser]
      exact read_fasta_group g hgg
    rw [List.map_congr_left hmapeq, List.map_id']
    exact split_flatten chunk_size (read_fasta (pyLines t))
  · rw [reparse, sizeChunkTexts, List.map_map]
    have hmapeq : ∀ g ∈ split_depending_on_size max_file_size (read_fasta (pyLines t)),
        ((fun ct => read_fasta (pyLines ct)) ∘
          (fun g => (g.map serializeSize).flatten)) g = (fun g => g) g := by
      intro g hg
      have hgg : ∀ r ∈ g, goodRec r := by
        intro r hr
        apply hgoodAll
        rw [← size_flatten max_file_size (read_fasta (pyLines t))]
        exact List.mem_flatten.mpr ⟨g, hg, hr⟩
      show read_fasta (pyLines ((g.map serializeSize).flatten)) = g
      exact read_fasta_group g hgg
    rw [List.map_congr_left hmapeq, List.map_id']
    exact size_flatten max_file_size (read_fasta (pyLines t))

/-- Witness for C1 on the two-record example, `chunk_size = 1` and
`max_file_size = 5`. -/
theorem round_trip_completeness_witness :
    (∀ r ∈ read_fasta (pyLines egText),
      ∀ l ∈ fillLines r.2 80, rstrip l = l ∧ ¬ l.head? = some '>') ∧
    (reparse (countChunkTexts 1 egText) = read_fasta (pyLines egText) ∧
     reparse (sizeChunkTexts 5 egText) = read_fasta (pyLines egText)) :=
  ⟨by decide, round_trip_completeness egText (by decide) 1 5⟩

/-- Counterexample to C1 as stated: a record whose 82-character sequence has
`'>'` at index 80 wraps into an output line that begins with `'>'`, which
the re-parse takes as a new header; the round trip turns one record into
two, so the claim fails without the amendment's side condition. -/
theorem round_trip_completeness_counterexample :
    reparse (countChunkTexts 1 badText) ≠ read_fasta (pyLines badText) := by
  decide
